import Mathlib

/-!
Shallow embedding of the calendar-puzzle solver (`src/solver/src/lib.rs`).

The Rust core works on a 64-bit bitboard addressed high-bit-first
(address 0 is the most significant bit).  Machine `u64` values are
modelled as `Nat`; every constant and every shift in the source stays
below `2 ^ 64`, and the one operation where the `u64` width matters
(right-shifting a piece pattern off the low end of the word) behaves
identically on `Nat` and on `u64`, because the right shift discards low bits the
same way.  Fallible code (`Result<Board, String>`) becomes
`Except String Board`.  The `u8` date arguments and the `u32` exploration
counter are also modelled as `Nat`: the counter is only ever incremented by
one per popped frame, and the day/month matches only distinguish values
far below the `u8` range.  The two Rust lazy iterators are modelled twice:
as explicit state machines (`next` functions, mirroring the source) and
as the lists those state machines emit.
-/

namespace Solver

/-- Rust `struct Board { bitboard: u64, placed_bricks: Vec<u64> }`. -/
structure Board where
  bitboard : Nat
  placed_bricks : List Nat
deriving DecidableEq, Repr

/-- Rust `Board::new`: the empty board holding only the guard mask. -/
def Board.new : Board :=
  { bitboard := 0b0000001100000011000000010000000100000001000000010001111111111111,
    placed_bricks := [] }

/-- Rust `Board::set_index`: mark one cell (high-bit-first address) occupied. -/
def Board.set_index (b : Board) (index : Nat) : Board :=
  { bitboard := b.bitboard ||| (1 <<< 63 >>> index),
    placed_bricks := b.placed_bricks }

/-- Rust `Board::for_date`, day half: the `match day` block with its five
address ranges and the error for out-of-range days. -/
def dayIndexed (day : Nat) (b : Board) : Except String Board :=
  if 1 ≤ day ∧ day ≤ 7 then .ok (b.set_index (day + 15))
  else if 8 ≤ day ∧ day ≤ 14 then .ok (b.set_index (day + 16))
  else if 15 ≤ day ∧ day ≤ 21 then .ok (b.set_index (day + 17))
  else if 22 ≤ day ∧ day ≤ 28 then .ok (b.set_index (day + 18))
  else if 29 ≤ day ∧ day ≤ 31 then .ok (b.set_index (day + 19))
  else .error ("Invalid day " ++ toString day ++ ". Valid days: 1-31")

/-- Rust `Board::for_date`: month is matched first (its error wins), then the
day; on success both marker cells are OR-ed into the guard mask. -/
def Board.for_date (day month : Nat) : Except String Board :=
  if 1 ≤ month ∧ month ≤ 6 then dayIndexed day (Board.new.set_index (month - 1))
  else if 7 ≤ month ∧ month ≤ 12 then dayIndexed day (Board.new.set_index (month + 1))
  else .error ("Invalid month " ++ toString month ++ ". Valid months: 1-12")

/-- Rust `struct BrickVariant { bit_pattern: u64 }`. -/
structure BrickVariant where
  bit_pattern : Nat
deriving DecidableEq, Repr

/-- Rust `struct Brick { brick_variants: Box<[BrickVariant]> }`. -/
structure Brick where
  brick_variants : List BrickVariant
deriving DecidableEq, Repr

/-- Rust `Brick::all_bricks`: the fixed catalog of 8 bricks with every
orientation pre-encoded, in source order. -/
def Brick.all_bricks : List Brick :=
  [ ⟨[ ⟨0b011000000100000011000000 <<< (5 * 8)⟩,
       ⟨0b110000000100000001100000 <<< (5 * 8)⟩,
       ⟨0b100000001110000000100000 <<< (5 * 8)⟩,
       ⟨0b001000001110000010000000 <<< (5 * 8)⟩ ]⟩,
    ⟨[ ⟨0b0001000011110000 <<< (6 * 8)⟩,
       ⟨0b1000000011110000 <<< (6 * 8)⟩,
       ⟨0b1111000000010000 <<< (6 * 8)⟩,
       ⟨0b1111000010000000 <<< (6 * 8)⟩,
       ⟨0b10000000100000001000000011000000 <<< (4 * 8)⟩,
       ⟨0b01000000010000000100000011000000 <<< (4 * 8)⟩,
       ⟨0b11000000100000001000000010000000 <<< (4 * 8)⟩,
       ⟨0b11000000010000000100000001000000 <<< (4 * 8)⟩ ]⟩,
    ⟨[ ⟨0b111000001000000010000000 <<< (5 * 8)⟩,
       ⟨0b111000000010000000100000 <<< (5 * 8)⟩,
       ⟨0b001000000010000011100000 <<< (5 * 8)⟩,
       ⟨0b100000001000000011100000 <<< (5 * 8)⟩ ]⟩,
    ⟨[ ⟨0b1110000011100000 <<< (6 * 8)⟩,
       ⟨0b110000001100000011000000 <<< (5 * 8)⟩ ]⟩,
    ⟨[ ⟨0b1110000010100000 <<< (6 * 8)⟩,
       ⟨0b1010000011100000 <<< (6 * 8)⟩,
       ⟨0b110000001000000011000000 <<< (5 * 8)⟩,
       ⟨0b110000000100000011000000 <<< (5 * 8)⟩ ]⟩,
    ⟨[ ⟨0b1110000011000000 <<< (6 * 8)⟩,
       ⟨0b1100000011100000 <<< (6 * 8)⟩,
       ⟨0b1110000001100000 <<< (6 * 8)⟩,
       ⟨0b0110000011100000 <<< (6 * 8)⟩,
       ⟨0b110000001100000010000000 <<< (5 * 8)⟩,
       ⟨0b110000001100000001000000 <<< (5 * 8)⟩,
       ⟨0b100000001100000011000000 <<< (5 * 8)⟩,
       ⟨0b010000001100000011000000 <<< (5 * 8)⟩ ]⟩,
    ⟨[ ⟨0b1111000001000000 <<< (6 * 8)⟩,
       ⟨0b1111000000100000 <<< (6 * 8)⟩,
       ⟨0b0100000011110000 <<< (6 * 8)⟩,
       ⟨0b0010000011110000 <<< (6 * 8)⟩,
       ⟨0b10000000110000001000000010000000 <<< (4 * 8)⟩,
       ⟨0b10000000100000001100000010000000 <<< (4 * 8)⟩,
       ⟨0b01000000110000000100000001000000 <<< (4 * 8)⟩,
       ⟨0b01000000010000001100000001000000 <<< (4 * 8)⟩ ]⟩,
    ⟨[ ⟨0b1110000000110000 <<< (6 * 8)⟩,
       ⟨0b0111000011000000 <<< (6 * 8)⟩,
       ⟨0b1100000001110000 <<< (6 * 8)⟩,
       ⟨0b0011000011100000 <<< (6 * 8)⟩,
       ⟨0b10000000100000001100000001000000 <<< (4 * 8)⟩,
       ⟨0b01000000110000001000000010000000 <<< (4 * 8)⟩,
       ⟨0b10000000110000000100000001000000 <<< (4 * 8)⟩,
       ⟨0b01000000010000001100000010000000 <<< (4 * 8)⟩ ]⟩ ]

/-- One placement test of Rust `ValidPlacementIterator::next`: shift the
orientation by the offset and, when it misses every occupied cell, build the
extended board (`bitboard | candidate`, `placed_bricks` with the candidate
pushed). -/
def placeOpt (b : Board) (v : BrickVariant) (i : Nat) : Option Board :=
  let indexed_brick_pattern := v.bit_pattern >>> i
  if b.bitboard &&& indexed_brick_pattern = 0 then
    some { bitboard := b.bitboard ||| indexed_brick_pattern,
           placed_bricks := b.placed_bricks ++ [indexed_brick_pattern] }
  else none

/-- Rust `Board::valid_placements`, as the full sequence the iterator yields:
orientations in catalog order, offsets `0..=42` increasing. -/
def Board.valid_placements (b : Board) (k : Brick) : List Board :=
  k.brick_variants.flatMap fun v => (List.range 43).filterMap (placeOpt b v)

/-- Rust `struct ValidPlacementIterator`: cursor state of the lazy placement
enumerator (`index` is the next shift offset, `brick_index` the current
orientation). -/
structure ValidPlacementIterator where
  index : Nat
  brick_index : Nat
  board : Board
  brick : Brick
deriving DecidableEq, Repr

/-- Rust `ValidPlacementIterator::new`. -/
def ValidPlacementIterator.new (board : Board) (brick : Brick) :
    ValidPlacementIterator :=
  ⟨0, 0, board, brick⟩

/-- Loop variant of the nested `while` loops in
`ValidPlacementIterator::next`: orientations left to scan, weighted by the 44
cursor positions (offsets 0 to 42 plus the exhausted position) of each. -/
def vpiMeasure (it : ValidPlacementIterator) : Nat :=
  (it.brick.brick_variants.length - it.brick_index) * 44 + (43 - it.index)

/-- Rust `ValidPlacementIterator::next`: scan orientations from `brick_index`
onward and offsets from `index` onward, return the first non-colliding
placement together with the advanced cursor, or `none` when the variants are
exhausted.  The two `while` loops of the source become the two tail calls. -/
def ValidPlacementIterator.next (it : ValidPlacementIterator) :
    Option (Board × ValidPlacementIterator) :=
  if h : it.brick_index < it.brick.brick_variants.length then
    let brick_variant := it.brick.brick_variants.get ⟨it.brick_index, h⟩
    if it.index ≤ 42 then
      match placeOpt it.board brick_variant it.index with
      | some b => some (b, ⟨it.index + 1, it.brick_index, it.board, it.brick⟩)
      | none =>
        ValidPlacementIterator.next ⟨it.index + 1, it.brick_index, it.board, it.brick⟩
    else
      ValidPlacementIterator.next ⟨0, it.brick_index + 1, it.board, it.brick⟩
  else
    none
termination_by vpiMeasure it
decreasing_by
  · simp only [vpiMeasure]
    omega
  · simp only [vpiMeasure]
    omega

/-- Branch equation for `next`: variants exhausted. -/
theorem vpi_next_done {it : ValidPlacementIterator}
    (h : ¬ it.brick_index < it.brick.brick_variants.length) : it.next = none := by
  unfold ValidPlacementIterator.next
  simp [h]

/-- Branch equation for `next`: current offset places the orientation. -/
theorem vpi_next_hit {it : ValidPlacementIterator}
    (h : it.brick_index < it.brick.brick_variants.length) (hle : it.index ≤ 42)
    {bd : Board}
    (hp : placeOpt it.board (it.brick.brick_variants.get ⟨it.brick_index, h⟩) it.index
        = some bd) :
    it.next = some (bd, ⟨it.index + 1, it.brick_index, it.board, it.brick⟩) := by
  rw [List.get_eq_getElem] at hp
  unfold ValidPlacementIterator.next
  simp [h, hle, hp]

/-- Branch equation for `next`: current offset collides, move to the next one. -/
theorem vpi_next_miss {it : ValidPlacementIterator}
    (h : it.brick_index < it.brick.brick_variants.length) (hle : it.index ≤ 42)
    (hp : placeOpt it.board (it.brick.brick_variants.get ⟨it.brick_index, h⟩) it.index
        = none) :
    it.next
      = ValidPlacementIterator.next ⟨it.index + 1, it.brick_index, it.board, it.brick⟩ := by
  rw [List.get_eq_getElem] at hp
  conv => lhs; unfold ValidPlacementIterator.next
  simp [h, hle, hp]

/-- Branch equation for `next`: offsets of this orientation exhausted, move to
the next orientation. -/
theorem vpi_next_row {it : ValidPlacementIterator}
    (h : it.brick_index < it.brick.brick_variants.length) (hle : ¬ it.index ≤ 42) :
    it.next
      = ValidPlacementIterator.next ⟨0, it.brick_index + 1, it.board, it.brick⟩ := by
  conv => lhs; unfold ValidPlacementIterator.next
  simp [h, hle]

/-- A successful `next` strictly shrinks the loop variant and never touches the
board or the brick. -/
theorem vpi_next_some (it : ValidPlacementIterator) :
    ∀ bd it', it.next = some (bd, it') →
      vpiMeasure it' < vpiMeasure it ∧ it'.board = it.board ∧ it'.brick = it.brick := by
  induction it using ValidPlacementIterator.next.induct with
  | case1 x hx bv hle bd0 hp =>
    intro bd it' h
    rw [vpi_next_hit hx hle hp] at h
    simp only [Option.some.injEq, Prod.mk.injEq] at h
    obtain ⟨-, rfl⟩ := h
    refine ⟨?_, rfl, rfl⟩
    simp only [vpiMeasure]
    omega
  | case2 x hx bv hle hp ih =>
    intro bd it' h
    rw [vpi_next_miss hx hle hp] at h
    obtain ⟨hm, hb, hk⟩ := ih bd it' h
    refine ⟨lt_of_lt_of_le hm ?_, hb, hk⟩
    simp only [vpiMeasure]
    omega
  | case3 x hx hle ih =>
    intro bd it' h
    rw [vpi_next_row hx hle] at h
    obtain ⟨hm, hb, hk⟩ := ih bd it' h
    refine ⟨lt_of_lt_of_le hm ?_, hb, hk⟩
    simp only [vpiMeasure]
    omega
  | case4 x hx =>
    intro bd it' h
    rw [vpi_next_done hx] at h
    simp at h

/-- Full run of the Rust placement iterator: the list of boards obtained by
calling `next` until it returns `None` (the `for` loop in
`SolveIterator::next` consumes it exactly this way). -/
def ValidPlacementIterator.emit (it : ValidPlacementIterator) : List Board :=
  match h : it.next with
  | none => []
  | some (bd, it') => bd :: it'.emit
termination_by vpiMeasure it
decreasing_by
  exact (vpi_next_some it bd it' h).1

/-- Run equation: an exhausted iterator emits nothing. -/
theorem vpi_emit_none {it : ValidPlacementIterator} (h : it.next = none) :
    it.emit = [] := by
  unfold ValidPlacementIterator.emit
  split <;> simp_all

/-- Run equation: a successful `next` contributes its board and continues. -/
theorem vpi_emit_some {it : ValidPlacementIterator} {bd : Board}
    {it' : ValidPlacementIterator} (h : it.next = some (bd, it')) :
    it.emit = bd :: it'.emit := by
  conv => lhs; unfold ValidPlacementIterator.emit
  split <;> simp_all

/-- What a placement-iterator state still has to produce: the tail of the
offset range for the current orientation, then all offsets of the later
orientations. -/
def emitSpec (b : Board) : Nat → List BrickVariant → List Board
  | _, [] => []
  | start, v :: rest =>
    (List.range' start (43 - start)).filterMap (placeOpt b v) ++ emitSpec b 0 rest

/-- Two iterator states whose `next` agree emit the same run. -/
theorem vpi_emit_congr {it it₂ : ValidPlacementIterator} (h : it.next = it₂.next) :
    it.emit = it₂.emit := by
  cases hn : it₂.next with
  | none => rw [vpi_emit_none (h.trans hn), vpi_emit_none hn]
  | some p =>
    obtain ⟨bd, it'⟩ := p
    rw [vpi_emit_some (h.trans hn), vpi_emit_some hn]

/-- The run of the placement iterator from any cursor state is exactly the
remaining part of the enumeration sequence. -/
theorem vpi_emit_eq_spec :
    ∀ (n : Nat) (it : ValidPlacementIterator), vpiMeasure it ≤ n →
      it.emit
        = emitSpec it.board it.index (it.brick.brick_variants.drop it.brick_index) := by
  intro n
  induction n with
  | zero =>
    intro it hm
    simp only [vpiMeasure] at hm
    have hbi : it.brick.brick_variants.length ≤ it.brick_index := by omega
    rw [vpi_emit_none (vpi_next_done (by omega)), List.drop_eq_nil_of_le hbi]
    rfl
  | succ n ih =>
    intro it hm
    by_cases hbi : it.brick_index < it.brick.brick_variants.length
    · have hdrop := List.drop_eq_getElem_cons hbi
      by_cases hle : it.index ≤ 42
      · have h43 : 43 - it.index = (42 - it.index) + 1 := by omega
        have h42 : 43 - (it.index + 1) = 42 - it.index := by omega
        cases hp : placeOpt it.board (it.brick.brick_variants.get ⟨it.brick_index, hbi⟩)
            it.index with
        | some bd =>
          rw [vpi_emit_some (vpi_next_hit hbi hle hp),
            ih ⟨it.index + 1, it.brick_index, it.board, it.brick⟩
              (by simp only [vpiMeasure] at hm ⊢; omega),
            hdrop, emitSpec, emitSpec, h43, h42, List.range'_succ, List.filterMap_cons]
          rw [List.get_eq_getElem] at hp
          simp [hp]
        | none =>
          rw [vpi_emit_congr (vpi_next_miss hbi hle hp),
            ih ⟨it.index + 1, it.brick_index, it.board, it.brick⟩
              (by simp only [vpiMeasure] at hm ⊢; omega),
            hdrop, emitSpec, emitSpec, h43, h42, List.range'_succ, List.filterMap_cons]
          rw [List.get_eq_getElem] at hp
          simp [hp]
      · have h0 : 43 - it.index = 0 := by omega
        rw [vpi_emit_congr (vpi_next_row hbi hle),
          ih ⟨0, it.brick_index + 1, it.board, it.brick⟩
            (by simp only [vpiMeasure] at hm ⊢; omega),
          hdrop, emitSpec, h0]
        simp
    · rw [vpi_emit_none (vpi_next_done hbi),
        List.drop_eq_nil_of_le (by omega)]
      rfl

/-- Claim-level form: a full run of the Rust placement iterator is the
`valid_placements` list. -/
theorem vpi_run_eq_valid_placements (b : Board) (k : Brick) :
    (ValidPlacementIterator.new b k).emit = b.valid_placements k := by
  rw [vpi_emit_eq_spec (vpiMeasure (ValidPlacementIterator.new b k)) _ le_rfl]
  show emitSpec b 0 k.brick_variants = b.valid_placements k
  rw [Board.valid_placements]
  induction k.brick_variants with
  | nil => rfl
  | cons v rest ih =>
    rw [emitSpec, List.flatMap_cons, ih, List.range_eq_range']

/-- The enumeration sequence is bounded by orientations times 43 offsets. -/
theorem valid_placements_length_le (b : Board) (k : Brick) :
    (b.valid_placements k).length ≤ k.brick_variants.length * 43 := by
  rw [Board.valid_placements]
  induction k.brick_variants with
  | nil => simp
  | cons v rest ih =>
    rw [List.flatMap_cons, List.length_append]
    have h1 : ((List.range 43).filterMap (placeOpt b v)).length ≤ 43 := by
      calc ((List.range 43).filterMap (placeOpt b v)).length
        ≤ (List.range 43).length := List.length_filterMap_le _ _
        _ = 43 := List.length_range 43
    simp only [List.length_cons]
    omega

/-- Rust `struct SolvedBoard { placed_bricks: Vec<u64>, test_count: u32 }`. -/
structure SolvedBoard where
  placed_bricks : List Nat
  test_count : Nat
deriving DecidableEq, Repr

/-- Rust `struct SolveIterator`: the explicit work stack of
`(board, remaining bricks)` frames plus the shared exploration counter.  The
head of the list is the top of the stack (the last frame pushed). -/
structure SolveIterator where
  stack : List (Board × List Brick)
  test_count : Nat
deriving DecidableEq, Repr

/-- Rust `SolveIterator::new`. -/
def SolveIterator.new (board : Board) (bricks : List Brick) : SolveIterator :=
  ⟨[(board, bricks)], 0⟩

/-- Weight of a frame carrying this remaining-bricks list: an upper bound
(plus one) on the number of descendants a frame can push per level. -/
def bricksMeasure : List Brick → Nat
  | [] => 1
  | k :: rest => (k.brick_variants.length * 43 + 1) * bricksMeasure rest

theorem bricksMeasure_pos (bricks : List Brick) : 0 < bricksMeasure bricks := by
  induction bricks with
  | nil => exact Nat.one_pos
  | cons k rest ih => exact Nat.mul_pos (Nat.succ_pos _) ih

/-- Loop variant of the `while let` loop in `SolveIterator::next`: total weight
of the work stack. -/
def stackMeasure (st : List (Board × List Brick)) : Nat :=
  (st.map fun f => bricksMeasure f.2).sum

/-- Expanding a frame replaces its weight by the strictly smaller total weight
of the placements pushed for the next brick. -/
theorem stackMeasure_push (b : Board) (brick : Brick) (remaining : List Brick)
    (rest : List (Board × List Brick)) :
    stackMeasure (((b.valid_placements brick).map fun nb => (nb, remaining)).reverse ++ rest)
      < stackMeasure ((b, brick :: remaining) :: rest) := by
  have hlen := valid_placements_length_le b brick
  have hpos := bricksMeasure_pos remaining
  unfold stackMeasure
  rw [List.map_append, List.sum_append, List.map_reverse, List.sum_reverse, List.map_map,
    List.map_cons, List.sum_cons]
  have hconst :
      ((b.valid_placements brick).map ((fun f => bricksMeasure f.2) ∘ fun nb => (nb, remaining))).sum
        = (b.valid_placements brick).length * bricksMeasure remaining := by
    show ((b.valid_placements brick).map fun _ => bricksMeasure remaining).sum = _
    rw [List.map_const', List.sum_replicate, smul_eq_mul]
  rw [hconst]
  have h1 : (b.valid_placements brick).length * bricksMeasure remaining
      < bricksMeasure (brick :: remaining) := by
    calc (b.valid_placements brick).length * bricksMeasure remaining
        ≤ (brick.brick_variants.length * 43) * bricksMeasure remaining :=
          Nat.mul_le_mul_right _ hlen
      _ < (brick.brick_variants.length * 43 + 1) * bricksMeasure remaining :=
          (Nat.mul_lt_mul_right hpos).mpr (Nat.lt_succ_self _)
      _ = bricksMeasure (brick :: remaining) := rfl
  have hsnd : bricksMeasure (b, brick :: remaining).2 = bricksMeasure (brick :: remaining) :=
    rfl
  omega

/-- Rust `SolveIterator::next`: pop a frame and bump the exploration counter;
an empty remaining-bricks list is a solution, otherwise the placements of the
next brick are pushed (in enumeration order, so popped in reverse) and the
loop continues. -/
def SolveIterator.next : SolveIterator → Option (SolvedBoard × SolveIterator)
  | ⟨[], _⟩ => none
  | ⟨(current_board, []) :: rest, test_count⟩ =>
    some (⟨current_board.placed_bricks, test_count + 1⟩, ⟨rest, test_count + 1⟩)
  | ⟨(current_board, brick :: remaining) :: rest, test_count⟩ =>
    SolveIterator.next
      ⟨((current_board.valid_placements brick).map fun nb => (nb, remaining)).reverse ++ rest,
        test_count + 1⟩
termination_by s => stackMeasure s.stack
decreasing_by
  exact stackMeasure_push current_board brick remaining rest

/-- A successful `next` strictly shrinks the stack weight, strictly raises the
counter, and stamps the emitted solution with the successor state's counter. -/
theorem si_next_some (s : SolveIterator) :
    ∀ sol s', s.next = some (sol, s') →
      stackMeasure s'.stack < stackMeasure s.stack
        ∧ s.test_count < sol.test_count ∧ sol.test_count = s'.test_count := by
  induction s using SolveIterator.next.induct with
  | case1 tc =>
    intro sol s' h
    simp [SolveIterator.next] at h
  | case2 current_board rest tc =>
    intro sol s' h
    simp only [SolveIterator.next, Option.some.injEq, Prod.mk.injEq] at h
    obtain ⟨rfl, rfl⟩ := h
    refine ⟨?_, Nat.lt_succ_self _, rfl⟩
    show stackMeasure rest < stackMeasure ((current_board, []) :: rest)
    unfold stackMeasure
    rw [List.map_cons, List.sum_cons]
    have : bricksMeasure (current_board, ([] : List Brick)).2 = 1 := rfl
    omega
  | case3 current_board brick remaining rest tc ih =>
    intro sol s' h
    rw [SolveIterator.next] at h
    obtain ⟨hm, htc, hs⟩ := ih sol s' h
    refine ⟨lt_trans hm (stackMeasure_push current_board brick remaining rest), ?_, hs⟩
    exact lt_trans (Nat.lt_succ_self tc) htc

/-- Full run of the Rust solve iterator: every `SolvedBoard` it yields, in
order, until `next` returns `None`. -/
def SolveIterator.emit (s : SolveIterator) : List SolvedBoard :=
  match h : s.next with
  | none => []
  | some (sol, s') => sol :: s'.emit
termination_by stackMeasure s.stack
decreasing_by
  exact (si_next_some s sol s' h).1

/-- Run equation: an exhausted solve iterator emits nothing. -/
theorem si_emit_none {s : SolveIterator} (h : s.next = none) : s.emit = [] := by
  unfold SolveIterator.emit
  split <;> simp_all

/-- Run equation: a successful `next` contributes its solution and continues. -/
theorem si_emit_some {s : SolveIterator} {sol : SolvedBoard} {s' : SolveIterator}
    (h : s.next = some (sol, s')) : s.emit = sol :: s'.emit := by
  conv => lhs; unfold SolveIterator.emit
  split <;> simp_all

/-- Rust `solve`: the full (finite) sequence of solutions for this initial
board and brick catalog, in emission order. -/
def solve (initial_board : Board) (bricks : List Brick) : List SolvedBoard :=
  (SolveIterator.new initial_board bricks).emit

/-! Bit-level helpers used by the tiling invariants. -/

/-- A number is zero exactly when all its bits are clear. -/
theorem eq_zero_iff_testBit (n : Nat) : n = 0 ↔ ∀ j, n.testBit j = false := by
  constructor
  · rintro rfl j
    exact Nat.zero_testBit j
  · intro h
    exact Nat.eq_of_testBit_eq fun j => (h j).trans (Nat.zero_testBit j).symm

/-- Bitwise-AND-freedom, bit by bit. -/
theorem land_eq_zero_iff {a b : Nat} :
    a &&& b = 0 ↔ ∀ j, a.testBit j = true → b.testBit j = false := by
  rw [eq_zero_iff_testBit]
  constructor
  · intro h j ha
    have hj := h j
    rwa [Nat.testBit_land, ha, Bool.true_and] at hj
  · intro h j
    rw [Nat.testBit_land]
    cases ha : a.testBit j with
    | false => rfl
    | true => rw [h j ha, Bool.and_false]

/-- `x` is bitwise contained in `y`. -/
def subBits (x y : Nat) : Prop := ∀ j, x.testBit j = true → y.testBit j = true

theorem subBits_of_land_eq {x y : Nat} (h : x &&& y = x) : subBits x y := by
  intro j hj
  have hx := congrArg (fun n => n.testBit j) h
  simp only [Nat.testBit_land] at hx
  cases hy : y.testBit j with
  | true => rfl
  | false => rw [hj, hy, Bool.and_false] at hx; exact hx

theorem subBits_or_left (x y : Nat) : subBits x (x ||| y) := by
  intro j hj
  rw [Nat.testBit_lor, hj, Bool.true_or]

theorem subBits_or_right (x y : Nat) : subBits y (x ||| y) := by
  intro j hj
  rw [Nat.testBit_lor, hj, Bool.or_true]

theorem subBits_trans {x y z : Nat} (h1 : subBits x y) (h2 : subBits y z) :
    subBits x z :=
  fun j hj => h2 j (h1 j hj)

/-- Collision-freedom against a mask transfers to any bitwise-smaller mask. -/
theorem land_zero_mono {x y c : Nat} (hsub : subBits x y) (h : y &&& c = 0) :
    x &&& c = 0 := by
  rw [land_eq_zero_iff] at h ⊢
  exact fun j hj => h j (hsub j hj)

theorem land_zero_comm {a b : Nat} (h : a &&& b = 0) : b &&& a = 0 := by
  rw [Nat.land_comm]
  exact h

/-- Union of a list of placement patterns, as the Rust solver accumulates them
into `bitboard`. -/
def orAll (l : List Nat) : Nat := l.foldr (fun p acc => p ||| acc) 0

theorem orAll_nil : orAll [] = 0 := rfl

theorem orAll_cons (p : Nat) (l : List Nat) : orAll (p :: l) = p ||| orAll l := rfl

theorem orAll_append_singleton (l : List Nat) (c : Nat) :
    orAll (l ++ [c]) = orAll l ||| c := by
  induction l with
  | nil => simp [orAll]
  | cons p l ih =>
    rw [List.cons_append, orAll_cons, ih, orAll_cons, Nat.or_assoc]

theorem testBit_orAll {l : List Nat} {j : Nat} :
    (orAll l).testBit j = true ↔ ∃ p ∈ l, p.testBit j = true := by
  induction l with
  | nil => simp [orAll]
  | cons p l ih =>
    rw [orAll_cons, Nat.testBit_lor, Bool.or_eq_true, ih]
    simp

theorem subBits_orAll_of_mem {p : Nat} {l : List Nat} (h : p ∈ l) :
    subBits p (orAll l) := by
  intro j hj
  exact testBit_orAll.mpr ⟨p, h, hj⟩

/-- The set of cell addresses (in `testBit` numbering, so address `a` of the
source is bit `63 - a`) covered by a 64-bit pattern.  For values below
`2 ^ 64` its cardinality is the population count. -/
def bitsOf (n : Nat) : Finset Nat :=
  (Finset.range 64).filter fun j => n.testBit j = true

theorem bitsOf_lor (a b : Nat) : bitsOf (a ||| b) = bitsOf a ∪ bitsOf b := by
  ext j
  simp only [bitsOf, Finset.mem_union, Finset.mem_filter, Finset.mem_range,
    Nat.testBit_lor, Bool.or_eq_true]
  tauto

theorem disjoint_bitsOf {a b : Nat} (h : a &&& b = 0) :
    Disjoint (bitsOf a) (bitsOf b) := by
  rw [Finset.disjoint_left]
  intro j hja hjb
  simp only [bitsOf, Finset.mem_filter, Finset.mem_range] at hja hjb
  have := (land_eq_zero_iff.mp h) j hja.2
  rw [hjb.2] at this
  exact Bool.noConfusion this

theorem card_bitsOf_lor {a b : Nat} (h : a &&& b = 0) :
    (bitsOf (a ||| b)).card = (bitsOf a).card + (bitsOf b).card := by
  rw [bitsOf_lor, Finset.card_union_of_disjoint (disjoint_bitsOf h)]

/-- Population count, peeling `fuel` low bits (kernel-friendly: structural
recursion over plain arithmetic). -/
def popcountAux : Nat → Nat → Nat
  | 0, _ => 0
  | fuel + 1, n => n % 2 + popcountAux fuel (n / 2)

/-- Population count of a 64-bit value. -/
def popcount64 (n : Nat) : Nat := popcountAux 64 n

theorem popcountAux_eq_card :
    ∀ (fuel n : Nat), n < 2 ^ fuel →
      popcountAux fuel n
        = ((Finset.range fuel).filter fun j => n.testBit j = true).card := by
  intro fuel
  induction fuel with
  | zero =>
    intro n hn
    interval_cases n
    rfl
  | succ f ih =>
    intro n hn
    have hdiv : n / 2 < 2 ^ f := by
      rw [Nat.div_lt_iff_lt_mul (by omega)]
      calc n < 2 ^ (f + 1) := hn
        _ = 2 ^ f * 2 := by rw [Nat.pow_succ]
    rw [popcountAux, ih (n / 2) hdiv]
    have hcard : ∀ (g : Nat) (m : Nat),
        ((Finset.range g).filter fun j => m.testBit j = true).card
          = ∑ j ∈ Finset.range g, if m.testBit j = true then 1 else 0 := by
      intro g m
      rw [Finset.card_filter]
    rw [hcard, hcard, Finset.sum_range_succ']
    have hshift : ∀ j, (n / 2).testBit j = n.testBit (j + 1) := by
      intro j
      rw [← Nat.shiftRight_one, Nat.testBit_shiftRight, Nat.add_comm]
    have hsum :
        (∑ j ∈ Finset.range f, if (n / 2).testBit j = true then 1 else 0)
          = ∑ j ∈ Finset.range f, if n.testBit (j + 1) = true then 1 else 0 := by
      refine Finset.sum_congr rfl ?_
      intro j hj
      rw [hshift j]
    have hbit0 : (if n.testBit 0 = true then 1 else 0) = n % 2 := by
      rw [Nat.testBit_zero]
      rcases Nat.mod_two_eq_zero_or_one n with h0 | h1
      · rw [h0]
        simp
      · rw [h1]
        simp
    rw [hsum, hbit0, Nat.add_comm]

/-- For 64-bit values the arithmetic popcount is the covered-cell count. -/
theorem popcount64_eq_card {n : Nat} (hn : n < 2 ^ 64) :
    popcount64 n = (bitsOf n).card :=
  popcountAux_eq_card 64 n hn

/-! Tiling invariants of the depth-first search. -/

/-- `p` is one of the placements the enumerator can ever produce for brick
`k`: some orientation shifted by at most 42, clear of the guard mask. -/
def placementOf (k : Brick) (p : Nat) : Prop :=
  ∃ v ∈ k.brick_variants, ∃ i < 43,
    p = v.bit_pattern >>> i ∧ Board.new.bitboard &&& p = 0

/-- Membership in the enumeration sequence, unfolded. -/
theorem mem_valid_placements {b : Board} {k : Brick} {b' : Board} :
    b' ∈ b.valid_placements k ↔
      ∃ v ∈ k.brick_variants, ∃ i < 43,
        b.bitboard &&& (v.bit_pattern >>> i) = 0 ∧
        b' = { bitboard := b.bitboard ||| (v.bit_pattern >>> i),
               placed_bricks := b.placed_bricks ++ [v.bit_pattern >>> i] } := by
  simp only [Board.valid_placements, List.mem_flatMap, List.mem_filterMap, List.mem_range,
    placeOpt, Option.ite_none_right_eq_some, Option.some.injEq]
  constructor
  · rintro ⟨v, hv, i, hi, hz, rfl⟩
    exact ⟨v, hv, i, hi, hz, rfl⟩
  · rintro ⟨v, hv, i, hi, hz, rfl⟩
    exact ⟨v, hv, i, hi, hz, rfl⟩

theorem forall₂_append_singleton {α β : Type} {R : α → β → Prop} {l1 : List α}
    {l2 : List β} (h : List.Forall₂ R l1 l2) {a : α} {b : β} (hab : R a b) :
    List.Forall₂ R (l1 ++ [a]) (l2 ++ [b]) :=
  List.rel_append h (List.Forall₂.cons hab List.Forall₂.nil)

/-- The guard mask is bitwise contained in `B0` (true of every date board). -/
def guardLe (B0 : Nat) : Prop := Board.new.bitboard &&& B0 = Board.new.bitboard

/-- Search-tree invariant of a board: its occupancy is exactly the initial
mask united with its placement history, the history placements come from the
already-consumed bricks in order, and they are pairwise disjoint and disjoint
from the initial mask. -/
structure GoodBoard (B0 : Nat) (used : List Brick) (b : Board) : Prop where
  bb_eq : b.bitboard = orAll b.placed_bricks ||| B0
  placements : List.Forall₂ placementOf used b.placed_bricks
  disj_pairwise : b.placed_bricks.Pairwise fun p q => p &&& q = 0
  disj_init : ∀ p ∈ b.placed_bricks, p &&& B0 = 0

/-- Every pattern in the history is bitwise contained in the occupancy. -/
theorem goodBoard_sub {B0 : Nat} {used : List Brick} {b : Board}
    (hb : GoodBoard B0 used b) {p : Nat} (hp : p ∈ b.placed_bricks) :
    subBits p b.bitboard := by
  rw [hb.bb_eq]
  exact subBits_trans (subBits_orAll_of_mem hp) (subBits_or_left _ _)

/-- `B0` is bitwise contained in the occupancy. -/
theorem goodBoard_sub_init {B0 : Nat} {used : List Brick} {b : Board}
    (hb : GoodBoard B0 used b) : subBits B0 b.bitboard := by
  rw [hb.bb_eq]
  exact subBits_or_right _ _

/-- Extending a good board by any enumerated placement of the next brick
yields a good board for the extended brick prefix. -/
theorem goodBoard_place {B0 : Nat} (hG : guardLe B0) {used : List Brick} {b : Board}
    (hb : GoodBoard B0 used b) {k : Brick} {b' : Board}
    (hmem : b' ∈ b.valid_placements k) : GoodBoard B0 (used ++ [k]) b' := by
  obtain ⟨v, hv, i, hi, hz, rfl⟩ := mem_valid_placements.mp hmem
  have hsubB0 : subBits B0 b.bitboard := goodBoard_sub_init hb
  have hcand0 : (v.bit_pattern >>> i) &&& B0 = 0 :=
    land_zero_comm (land_zero_mono hsubB0 hz)
  have hguard : subBits Board.new.bitboard b.bitboard :=
    subBits_trans (subBits_of_land_eq hG) hsubB0
  refine ⟨?_, ?_, ?_, ?_⟩
  · show b.bitboard ||| (v.bit_pattern >>> i) = _
    rw [orAll_append_singleton, hb.bb_eq, Nat.or_assoc, Nat.or_assoc,
      Nat.or_comm B0 (v.bit_pattern >>> i)]
  · refine forall₂_append_singleton hb.placements ?_
    exact ⟨v, hv, i, hi, rfl, land_zero_mono hguard hz⟩
  · rw [List.pairwise_append]
    refine ⟨hb.disj_pairwise, List.pairwise_singleton _ _, ?_⟩
    intro p hp q hq
    rw [List.mem_singleton] at hq
    subst hq
    exact land_zero_mono (goodBoard_sub hb hp) hz
  · intro p hp
    rw [List.mem_append, List.mem_singleton] at hp
    rcases hp with hp | rfl
    · exact hb.disj_init p hp
    · exact hcand0

/-- Search-frame invariant: the remaining bricks are the unconsumed suffix of
the catalog and the board is good for the consumed prefix. -/
def FrameInv (B0 : Nat) (f : Board × List Brick) : Prop :=
  ∃ used, used ++ f.2 = Brick.all_bricks ∧ GoodBoard B0 used f.1

/-- What holds of every solution the search can emit. -/
def SolutionOK (B0 : Nat) (sol : SolvedBoard) : Prop :=
  List.Forall₂ placementOf Brick.all_bricks sol.placed_bricks
    ∧ (sol.placed_bricks.Pairwise fun p q => p &&& q = 0)
    ∧ ∀ p ∈ sol.placed_bricks, p &&& B0 = 0

/-- One `next` step preserves the frame invariant on the stack and only emits
solutions satisfying `SolutionOK`. -/
theorem si_next_inv {B0 : Nat} (hG : guardLe B0) (s : SolveIterator) :
    (∀ f ∈ s.stack, FrameInv B0 f) →
      ∀ sol s', s.next = some (sol, s') →
        SolutionOK B0 sol ∧ ∀ f ∈ s'.stack, FrameInv B0 f := by
  induction s using SolveIterator.next.induct with
  | case1 tc =>
    intro hs sol s' h
    simp [SolveIterator.next] at h
  | case2 current_board rest tc =>
    intro hs sol s' h
    simp only [SolveIterator.next, Option.some.injEq, Prod.mk.injEq] at h
    obtain ⟨rfl, rfl⟩ := h
    obtain ⟨used, hused, hgood⟩ :=
      hs (current_board, ([] : List Brick)) (List.mem_cons_self _ _)
    have hused' : used = Brick.all_bricks := by simpa using hused
    subst hused'
    refine ⟨⟨hgood.placements, hgood.disj_pairwise, hgood.disj_init⟩, ?_⟩
    intro f hf
    exact hs f (List.mem_cons_of_mem _ hf)
  | case3 current_board brick remaining rest tc ih =>
    intro hs sol s' h
    rw [SolveIterator.next] at h
    refine ih ?_ sol s' h
    intro f hf
    rw [List.mem_append] at hf
    rcases hf with hf | hf
    · rw [List.mem_reverse, List.mem_map] at hf
      obtain ⟨nb, hnb, rfl⟩ := hf
      obtain ⟨used, hused, hgood⟩ :=
        hs (current_board, brick :: remaining) (List.mem_cons_self _ _)
      refine ⟨used ++ [brick], ?_, goodBoard_place hG hgood hnb⟩
      rw [List.append_assoc]
      exact hused
    · exact hs f (List.mem_cons_of_mem _ hf)

/-- Every solution of a full run from an invariant-respecting stack satisfies
`SolutionOK`. -/
theorem si_emit_inv {B0 : Nat} (hG : guardLe B0) :
    ∀ (n : Nat) (s : SolveIterator), stackMeasure s.stack ≤ n →
      (∀ f ∈ s.stack, FrameInv B0 f) →
        ∀ sol ∈ s.emit, SolutionOK B0 sol := by
  intro n
  induction n with
  | zero =>
    intro s hm hs sol hsol
    cases hn : s.next with
    | none => rw [si_emit_none hn] at hsol; cases hsol
    | some p =>
      obtain ⟨sol', s'⟩ := p
      have := (si_next_some s sol' s' hn).1
      omega
  | succ n ih =>
    intro s hm hs sol hsol
    cases hn : s.next with
    | none => rw [si_emit_none hn] at hsol; cases hsol
    | some p =>
      obtain ⟨sol', s'⟩ := p
      rw [si_emit_some hn, List.mem_cons] at hsol
      obtain ⟨hok, hs'⟩ := si_next_inv hG s hs sol' s' hn
      rcases hsol with rfl | hsol
      · exact hok
      · have hm' := (si_next_some s sol' s' hn).1
        exact ih s' (by omega) hs' sol hsol

/-! Counting: the 8 bricks cover 41 cells, the marked board occupies the other
23 of the 64 bit positions, so a solution covers the whole word. -/

/-- Cell counts of the 8 catalog bricks, in catalog order. -/
def brickSizes : List Nat := [5, 5, 5, 6, 5, 5, 5, 5]

instance guardLe.decidable (B0 : Nat) : Decidable (guardLe B0) :=
  decidable_of_iff (Board.new.bitboard &&& B0 = Board.new.bitboard) Iff.rfl

/-- Executable form of the placement-size check over the catalog. -/
def checkPlacementCard : Bool :=
  (List.zip Brick.all_bricks brickSizes).all fun ks =>
    ks.1.brick_variants.all fun v =>
      (List.range 43).all fun i =>
        !(Board.new.bitboard &&& (v.bit_pattern >>> i) == 0)
          || (popcount64 (v.bit_pattern >>> i) == ks.2)

theorem checkPlacementCard_eq : checkPlacementCard = true := by rfl

/-- Finite check over the catalog: any orientation, shifted by at most 42 so
that it misses the guard mask, still covers exactly its brick's cell count
(no bit was shifted out of the word). -/
theorem catalog_placement_card :
    ∀ ks ∈ List.zip Brick.all_bricks brickSizes, ∀ v ∈ ks.1.brick_variants, ∀ i < 43,
      Board.new.bitboard &&& (v.bit_pattern >>> i) = 0 →
        popcount64 (v.bit_pattern >>> i) = ks.2 := by
  intro ks hks v hv i hi hcond
  have h := checkPlacementCard_eq
  unfold checkPlacementCard at h
  rw [List.all_eq_true] at h
  have h1 := h ks hks
  rw [List.all_eq_true] at h1
  have h2 := h1 v hv
  rw [List.all_eq_true] at h2
  have h3 := h2 i (List.mem_range.mpr hi)
  simp only [Bool.or_eq_true, Bool.not_eq_true', beq_iff_eq, beq_eq_false_iff_ne] at h3
  rcases h3 with h3 | h3
  · exact absurd hcond h3
  · exact h3

/-- Finite check over the catalog: every orientation pattern fits in 64 bits. -/
theorem catalog_lt_two_pow :
    ∀ k ∈ Brick.all_bricks, ∀ v ∈ k.brick_variants, v.bit_pattern < 2 ^ 64 := by
  decide

/-- `catalog_placement_card`, restated for abstract placements. -/
theorem placement_card :
    ∀ ks ∈ List.zip Brick.all_bricks brickSizes, ∀ p, placementOf ks.1 p →
      (bitsOf p).card = ks.2 := by
  intro ks hks p hp
  obtain ⟨v, hv, i, hi, rfl, hz⟩ := hp
  have hk : ks.1 ∈ Brick.all_bricks := (List.mem_zip hks).1
  have hlt : v.bit_pattern >>> i < 2 ^ 64 := by
    calc v.bit_pattern >>> i = v.bit_pattern / 2 ^ i := Nat.shiftRight_eq_div_pow _ i
      _ ≤ v.bit_pattern := Nat.div_le_self _ _
      _ < 2 ^ 64 := catalog_lt_two_pow ks.1 hk v hv
  rw [← popcount64_eq_card hlt]
  exact catalog_placement_card ks hks v hv i hi hz

theorem forall₂_mem_right {α β : Type} {R : α → β → Prop} :
    ∀ {l1 : List α} {l2 : List β}, List.Forall₂ R l1 l2 →
      ∀ b ∈ l2, ∃ a ∈ l1, R a b := by
  intro l1 l2 h
  induction h with
  | nil =>
    intro b hb
    cases hb
  | cons hab hrest ih =>
    intro b hb
    rcases List.mem_cons.mp hb with rfl | hb
    · exact ⟨_, List.mem_cons_self _ _, hab⟩
    · obtain ⟨a, ha, hr⟩ := ih b hb
      exact ⟨a, List.mem_cons_of_mem _ ha, hr⟩

/-- The per-placement cell counts of a solution sum to the brick sizes. -/
theorem card_sum_of_forall₂ :
    ∀ (bricks : List Brick) (szs : List Nat) (placed : List Nat),
      (∀ ks ∈ List.zip bricks szs, ∀ p, placementOf ks.1 p → (bitsOf p).card = ks.2) →
      List.Forall₂ placementOf bricks placed → bricks.length = szs.length →
      (placed.map fun p => (bitsOf p).card).sum = szs.sum := by
  intro bricks szs placed hchk hf
  induction hf generalizing szs with
  | nil =>
    intro hlen
    cases szs with
    | nil => rfl
    | cons sz szs => cases hlen
  | @cons k p bricks placed hkp hrest ih =>
    intro hlen
    cases szs with
    | nil => cases hlen
    | cons sz szs =>
      rw [List.map_cons, List.sum_cons, List.sum_cons]
      have hhead : (bitsOf p).card = sz :=
        hchk (k, sz) (by rw [List.zip_cons_cons]; exact List.mem_cons_self _ _) p hkp
      have htail :
          (placed.map fun q => (bitsOf q).card).sum = szs.sum := by
        refine ih szs ?_ (by simpa using hlen)
        intro ks hks q hq
        exact hchk ks (by rw [List.zip_cons_cons]; exact List.mem_cons_of_mem _ hks) q hq
      rw [hhead, htail]

/-- Cardinality of a disjoint union of placements over an initial mask. -/
theorem card_orAll_lor {B0 : Nat} :
    ∀ placed : List Nat,
      (placed.Pairwise fun p q => p &&& q = 0) → (∀ p ∈ placed, p &&& B0 = 0) →
      (bitsOf (orAll placed ||| B0)).card
        = (placed.map fun p => (bitsOf p).card).sum + (bitsOf B0).card := by
  intro placed
  induction placed with
  | nil =>
    intro _ _
    rw [orAll_nil, Nat.zero_or]
    simp
  | cons p l ih =>
    intro hpw hd0
    obtain ⟨hpl, hpw'⟩ := List.pairwise_cons.mp hpw
    have hdisj : p &&& (orAll l ||| B0) = 0 := by
      rw [land_eq_zero_iff]
      intro j hj
      rw [Nat.testBit_lor]
      have h1 : (orAll l).testBit j = false := by
        cases htb : (orAll l).testBit j with
        | false => rfl
        | true =>
          obtain ⟨q, hq, hqj⟩ := testBit_orAll.mp htb
          have := land_eq_zero_iff.mp (hpl q hq) j hj
          rw [hqj] at this
          exact this
      have h2 : B0.testBit j = false :=
        land_eq_zero_iff.mp (hd0 p (List.mem_cons_self _ _)) j hj
      rw [h1, h2]
      rfl
    rw [orAll_cons, Nat.or_assoc, card_bitsOf_lor hdisj, List.map_cons, List.sum_cons,
      ih hpw' fun q hq => hd0 q (List.mem_cons_of_mem _ hq)]
    omega

/-- `a ||| b` stays below a power of two when both halves do. -/
theorem lor_lt_two_pow {a b n : Nat} (ha : a < 2 ^ n) (hb : b < 2 ^ n) :
    a ||| b < 2 ^ n := by
  apply Nat.lt_pow_two_of_testBit
  intro i hi
  have hpow : (2 : Nat) ^ n ≤ 2 ^ i := Nat.pow_le_pow_right (by omega) hi
  rw [Nat.testBit_lor, Nat.testBit_lt_two_pow (lt_of_lt_of_le ha hpow),
    Nat.testBit_lt_two_pow (lt_of_lt_of_le hb hpow)]
  rfl

theorem orAll_lt_two_pow {l : List Nat} (h : ∀ p ∈ l, p < 2 ^ 64) :
    orAll l < 2 ^ 64 := by
  induction l with
  | nil =>
    rw [orAll_nil]
    exact Nat.pos_pow_of_pos 64 (by omega)
  | cons p l ih =>
    rw [orAll_cons]
    exact lor_lt_two_pow (h p (List.mem_cons_self _ _))
      (ih fun q hq => h q (List.mem_cons_of_mem _ hq))

/-- A 64-bit value covering all 64 positions is the all-ones word. -/
theorem full_mask_of_card {X : Nat} (hlt : X < 2 ^ 64)
    (hcard : (bitsOf X).card = 64) : X = 2 ^ 64 - 1 := by
  have hsub : bitsOf X ⊆ Finset.range 64 := Finset.filter_subset _ _
  have heq : bitsOf X = Finset.range 64 :=
    Finset.eq_of_subset_of_card_le hsub (by rw [hcard, Finset.card_range])
  apply Nat.eq_of_testBit_eq
  intro j
  rw [Nat.testBit_two_pow_sub_one]
  by_cases hj : j < 64
  · have hmem : j ∈ bitsOf X := by
      rw [heq]
      exact Finset.mem_range.mpr hj
    rw [bitsOf, Finset.mem_filter] at hmem
    rw [hmem.2]
    simp [hj]
  · have hpow : (2 : Nat) ^ 64 ≤ 2 ^ j := Nat.pow_le_pow_right (by omega) (by omega)
    rw [Nat.testBit_lt_two_pow (lt_of_lt_of_le hlt hpow)]
    simp [hj]

/-- Executable check of the facts needed about one date board: the guard mask
is contained in it, it occupies 23 of the 64 positions, it fits in 64 bits,
and its placement history starts empty. -/
def dateBoardOk (d m : Nat) : Bool :=
  match Board.for_date d m with
  | .ok b =>
    decide (guardLe b.bitboard) && decide (popcount64 b.bitboard = 23)
      && decide (b.bitboard < 2 ^ 64) && decide (b.placed_bricks = [])
  | .error _ => false

/-- Executable scan of `dateBoardOk` over all candidate dates. -/
def checkDates : Bool :=
  (List.range 32).all fun d =>
    (List.range 13).all fun m =>
      (d == 0) || (m == 0) || dateBoardOk d m

theorem checkDates_eq : checkDates = true := by rfl

/-- Finite check over all 31 x 12 candidate dates. -/
theorem dateBoardOk_valid : ∀ d < 32, ∀ m < 13, 1 ≤ d → 1 ≤ m →
    dateBoardOk d m = true := by
  intro d hd m hm hd1 hm1
  have h := checkDates_eq
  unfold checkDates at h
  rw [List.all_eq_true] at h
  have h1 := h d (List.mem_range.mpr hd)
  rw [List.all_eq_true] at h1
  have h2 := h1 m (List.mem_range.mpr hm)
  simp only [Bool.or_eq_true, beq_iff_eq] at h2
  rcases h2 with (h2 | h2) | h2
  · omega
  · omega
  · exact h2

/-- The facts of `dateBoardOk`, extracted for a successfully built board. -/
theorem date_board_props {d m : Nat} {b : Board} (hd : 1 ≤ d) (hd31 : d ≤ 31)
    (hm : 1 ≤ m) (hm12 : m ≤ 12) (h : Board.for_date d m = .ok b) :
    guardLe b.bitboard ∧ (bitsOf b.bitboard).card = 23 ∧ b.bitboard < 2 ^ 64
      ∧ b.placed_bricks = [] := by
  have hok := dateBoardOk_valid d (by omega) m (by omega) hd hm
  unfold dateBoardOk at hok
  rw [h] at hok
  simp only [Bool.and_eq_true, decide_eq_true_eq] at hok
  refine ⟨hok.1.1.1, ?_, hok.1.2, hok.2⟩
  rw [← popcount64_eq_card hok.1.2]
  exact hok.1.1.2

/-- From `SolutionOK` to the exact-cover statement: 8 placements whose union
with the initial mask is the all-ones 64-bit word. -/
theorem solution_covers {B0 : Nat} (hcard : (bitsOf B0).card = 23)
    (hlt : B0 < 2 ^ 64) {sol : SolvedBoard} (hok : SolutionOK B0 sol) :
    sol.placed_bricks.length = 8 ∧ orAll sol.placed_bricks ||| B0 = 2 ^ 64 - 1 := by
  obtain ⟨hf, hpw, hd0⟩ := hok
  have hlen : sol.placed_bricks.length = 8 := by
    have h8 : Brick.all_bricks.length = 8 := rfl
    rw [← hf.length_eq, h8]
  have hsum : (sol.placed_bricks.map fun p => (bitsOf p).card).sum = 41 := by
    rw [card_sum_of_forall₂ Brick.all_bricks brickSizes sol.placed_bricks
      placement_card hf rfl]
    rfl
  have hcard64 : (bitsOf (orAll sol.placed_bricks ||| B0)).card = 64 := by
    rw [card_orAll_lor sol.placed_bricks hpw hd0, hsum, hcard]
  have hplt : ∀ p ∈ sol.placed_bricks, p < 2 ^ 64 := by
    intro p hp
    obtain ⟨k, hk, hpl⟩ := forall₂_mem_right hf p hp
    obtain ⟨v, hv, i, hi, rfl, -⟩ := hpl
    calc v.bit_pattern >>> i = v.bit_pattern / 2 ^ i := Nat.shiftRight_eq_div_pow _ i
      _ ≤ v.bit_pattern := Nat.div_le_self _ _
      _ < 2 ^ 64 := catalog_lt_two_pow k hk v hv
  exact ⟨hlen,
    full_mask_of_card (lor_lt_two_pow (orAll_lt_two_pow hplt) hlt) hcard64⟩

/-- All solutions a date board can emit satisfy the structural facts. -/
theorem solve_solutionOK {d m : Nat} {b : Board} (hd : 1 ≤ d) (hd31 : d ≤ 31)
    (hm : 1 ≤ m) (hm12 : m ≤ 12) (h : Board.for_date d m = .ok b) :
    ∀ sol ∈ solve b Brick.all_bricks, SolutionOK b.bitboard sol := by
  obtain ⟨hG, -, -, hnil⟩ := date_board_props hd hd31 hm hm12 h
  intro sol hsol
  refine si_emit_inv hG (stackMeasure (SolveIterator.new b Brick.all_bricks).stack) _
    le_rfl ?_ sol hsol
  intro f hf
  rw [SolveIterator.new] at hf
  simp only [List.mem_singleton] at hf
  subst hf
  refine ⟨[], rfl, ?_, ?_, ?_, ?_⟩
  · show b.bitboard = orAll b.placed_bricks ||| b.bitboard
    rw [hnil, orAll_nil, Nat.zero_or]
  · rw [hnil]
    exact List.Forall₂.nil
  · rw [hnil]
    exact List.Pairwise.nil
  · rw [hnil]
    intro p hp
    cases hp

/-- Counter monotonicity over a full run: solutions come out with
non-decreasing `test_count`, all bounded below by the state's counter. -/
theorem si_emit_monotone :
    ∀ (n : Nat) (s : SolveIterator), stackMeasure s.stack ≤ n →
      (List.Pairwise (fun a b => a.test_count ≤ b.test_count) s.emit)
        ∧ ∀ x ∈ s.emit, s.test_count ≤ x.test_count := by
  intro n
  induction n with
  | zero =>
    intro s hm
    cases hn : s.next with
    | none =>
      rw [si_emit_none hn]
      exact ⟨List.Pairwise.nil, fun x hx => by cases hx⟩
    | some p =>
      obtain ⟨sol', s'⟩ := p
      have := (si_next_some s sol' s' hn).1
      omega
  | succ n ih =>
    intro s hm
    cases hn : s.next with
    | none =>
      rw [si_emit_none hn]
      exact ⟨List.Pairwise.nil, fun x hx => by cases hx⟩
    | some p =>
      obtain ⟨sol', s'⟩ := p
      obtain ⟨hmlt, htc, hstamp⟩ := si_next_some s sol' s' hn
      obtain ⟨hpw', hlb'⟩ := ih s' (by omega)
      rw [si_emit_some hn]
      constructor
      · refine List.Pairwise.cons ?_ hpw'
        intro x hx
        rw [hstamp]
        exact hlb' x hx
      · intro x hx
        rcases List.mem_cons.mp hx with rfl | hx
        · omega
        · have := hlb' x hx
          omega

/-- Iterate a step function inside `Option`, for stating termination. -/
def iterOpt {α : Type} (f : α → Option α) : Nat → α → Option α
  | 0, a => some a
  | n + 1, a =>
    match f a with
    | none => none
    | some b => iterOpt f n b

theorem iterOpt_succ {α : Type} (f : α → Option α) (n : Nat) (a : α) :
    iterOpt f (n + 1) a
      = match f a with
        | none => none
        | some b => iterOpt f n b := rfl

/-- State-only step of the solve iterator. -/
def SolveIterator.nextState (s : SolveIterator) : Option SolveIterator :=
  s.next.map fun p => p.2

/-- State-only step of the placement iterator. -/
def ValidPlacementIterator.nextState (it : ValidPlacementIterator) :
    Option ValidPlacementIterator :=
  it.next.map fun p => p.2

theorem si_reaches_none :
    ∀ (n : Nat) (s : SolveIterator), stackMeasure s.stack ≤ n →
      ∃ k, iterOpt SolveIterator.nextState k s = none := by
  intro n
  induction n with
  | zero =>
    intro s hm
    cases hn : s.next with
    | none =>
      refine ⟨1, ?_⟩
      simp [iterOpt_succ, SolveIterator.nextState, hn]
    | some p =>
      obtain ⟨sol', s'⟩ := p
      have := (si_next_some s sol' s' hn).1
      omega
  | succ n ih =>
    intro s hm
    cases hn : s.next with
    | none =>
      refine ⟨1, ?_⟩
      simp [iterOpt_succ, SolveIterator.nextState, hn]
    | some p =>
      obtain ⟨sol', s'⟩ := p
      have hmlt := (si_next_some s sol' s' hn).1
      obtain ⟨k, hk⟩ := ih s' (by omega)
      refine ⟨k + 1, ?_⟩
      rw [iterOpt_succ]
      simp only [SolveIterator.nextState, hn, Option.map_some]
      exact hk

theorem vpi_reaches_none :
    ∀ (n : Nat) (it : ValidPlacementIterator), vpiMeasure it ≤ n →
      ∃ k, iterOpt ValidPlacementIterator.nextState k it = none := by
  intro n
  induction n with
  | zero =>
    intro it hm
    cases hn : it.next with
    | none =>
      refine ⟨1, ?_⟩
      simp [iterOpt_succ, ValidPlacementIterator.nextState, hn]
    | some p =>
      obtain ⟨bd, it'⟩ := p
      have := (vpi_next_some it bd it' hn).1
      omega
  | succ n ih =>
    intro it hm
    cases hn : it.next with
    | none =>
      refine ⟨1, ?_⟩
      simp [iterOpt_succ, ValidPlacementIterator.nextState, hn]
    | some p =>
      obtain ⟨bd, it'⟩ := p
      have hmlt := (vpi_next_some it bd it' hn).1
      obtain ⟨k, hk⟩ := ih it' (by omega)
      refine ⟨k + 1, ?_⟩
      rw [iterOpt_succ]
      simp only [ValidPlacementIterator.nextState, hn, Option.map_some]
      exact hk

/-! Claim theorems. -/

/-- Executable form of the shift-safety check: population count preserved and
no set bit in the low `i % 8` columns (the byte-repeating mask selects the
`testBit` positions `j` with `j % 8 < i % 8`, exactly the cells a shift by
`i` would wrap across a row boundary). -/
def checkShiftSafe : Bool :=
  Brick.all_bricks.all fun k =>
    k.brick_variants.all fun v =>
      (List.range 43).all fun i =>
        !(Board.new.bitboard &&& (v.bit_pattern >>> i) == 0)
          || ((popcount64 (v.bit_pattern >>> i) == popcount64 v.bit_pattern)
              && (v.bit_pattern &&& (0x0101010101010101 * (2 ^ (i % 8) - 1)) == 0))

theorem checkShiftSafe_eq : checkShiftSafe = true := by rfl

/-- Finite check over the catalog: guard-clear shifts keep the population
count and touch no cell in the columns that a shift by `i` would wrap. -/
theorem catalog_shift_safe :
    ∀ k ∈ Brick.all_bricks, ∀ v ∈ k.brick_variants, ∀ i < 43,
      Board.new.bitboard &&& (v.bit_pattern >>> i) = 0 →
        popcount64 (v.bit_pattern >>> i) = popcount64 v.bit_pattern
          ∧ v.bit_pattern &&& (0x0101010101010101 * (2 ^ (i % 8) - 1)) = 0 := by
  intro k hk v hv i hi hcond
  have h := checkShiftSafe_eq
  unfold checkShiftSafe at h
  rw [List.all_eq_true] at h
  have h1 := h k hk
  rw [List.all_eq_true] at h1
  have h2 := h1 v hv
  rw [List.all_eq_true] at h2
  have h3 := h2 i (List.mem_range.mpr hi)
  simp only [Bool.or_eq_true, Bool.and_eq_true, Bool.not_eq_true', beq_iff_eq,
    beq_eq_false_iff_ne] at h3
  rcases h3 with h3 | h3
  · exact absurd hcond h3
  · exact h3

/-- The wrap mask for shift remainder `c` selects exactly the `testBit`
positions `j` with `j % 8 < c`. -/
theorem lowColsMask_testBit :
    ∀ c < 8, ∀ j < 64,
      ((0x0101010101010101 : Nat) * (2 ^ c - 1)).testBit j = decide (j % 8 < c) := by
  decide

/-- Finite check: every catalog brick has at most 8 orientations. -/
theorem catalog_variants_le :
    ∀ k ∈ Brick.all_bricks, k.brick_variants.length ≤ 8 := by
  decide

/-- C1: for every valid date, every solution emitted by `solve` on the date
board places exactly 8 bricks, and the union of the 8 placement patterns
OR-ed with the initial board's bitboard is the full 64-bit all-ones word:
the tiling covers every free cell with no gap. -/
theorem claim_C1 (d m : Nat) (hd : 1 ≤ d) (hd31 : d ≤ 31) (hm : 1 ≤ m)
    (hm12 : m ≤ 12) (b : Board) (hb : Board.for_date d m = .ok b) :
    ∀ sol ∈ solve b Brick.all_bricks,
      sol.placed_bricks.length = 8
        ∧ orAll sol.placed_bricks ||| b.bitboard = 2 ^ 64 - 1 := by
  intro sol hsol
  obtain ⟨-, hcard, hlt, -⟩ := date_board_props hd hd31 hm hm12 hb
  exact solution_covers hcard hlt (solve_solutionOK hd hd31 hm hm12 hb sol hsol)

/-- Witness for C1 at January 1. -/
theorem claim_C1_witness :
    Board.for_date 1 1
        = Except.ok { bitboard := 0x8303810101011fff, placed_bricks := [] }
      ∧ List.Forall
          (fun sol => sol.placed_bricks.length = 8
            ∧ orAll sol.placed_bricks ||| 0x8303810101011fff = 2 ^ 64 - 1)
          (solve { bitboard := 0x8303810101011fff, placed_bricks := [] }
            Brick.all_bricks) := by
  have hok : Board.for_date 1 1
      = Except.ok { bitboard := 0x8303810101011fff, placed_bricks := [] } := rfl
  refine ⟨hok, List.forall_iff_forall_mem.mpr ?_⟩
  exact claim_C1 1 1 (by omega) (by omega) (by omega) (by omega) _ hok

/-- C2: for every valid date and every solution emitted for it, no two
patterns in `placed_bricks` share a set bit. -/
theorem claim_C2 (d m : Nat) (hd : 1 ≤ d) (hd31 : d ≤ 31) (hm : 1 ≤ m)
    (hm12 : m ≤ 12) (b : Board) (hb : Board.for_date d m = .ok b) :
    ∀ sol ∈ solve b Brick.all_bricks,
      sol.placed_bricks.Pairwise fun p q => p &&& q = 0 := by
  intro sol hsol
  exact (solve_solutionOK hd hd31 hm hm12 hb sol hsol).2.1

/-- Witness for C2 at December 31. -/
theorem claim_C2_witness :
    Board.for_date 31 12
        = Except.ok { bitboard := 0x0307010101013fff, placed_bricks := [] }
      ∧ List.Forall
          (fun sol => sol.placed_bricks.Pairwise fun p q => p &&& q = 0)
          (solve { bitboard := 0x0307010101013fff, placed_bricks := [] }
            Brick.all_bricks) := by
  have hok : Board.for_date 31 12
      = Except.ok { bitboard := 0x0307010101013fff, placed_bricks := [] } := rfl
  refine ⟨hok, List.forall_iff_forall_mem.mpr ?_⟩
  exact claim_C2 31 12 (by omega) (by omega) (by omega) (by omega) _ hok

/-- C3: for every catalog orientation and shift offset up to 42, if the
shifted candidate misses the guard mask of the date-free board then the shift
dropped no bits off the word (cell count preserved) and wrapped no cell
across a row boundary of the 8-wide grid. -/
theorem claim_C3 (k : Brick) (hk : k ∈ Brick.all_bricks) (v : BrickVariant)
    (hv : v ∈ k.brick_variants) (i : Nat) (hi : i ≤ 42)
    (hdisj : Board.new.bitboard &&& (v.bit_pattern >>> i) = 0) :
    popcount64 (v.bit_pattern >>> i) = popcount64 v.bit_pattern
      ∧ ∀ j < 64, v.bit_pattern.testBit j = true → (63 - j) % 8 + i % 8 < 8 := by
  obtain ⟨hpc, hmask⟩ := catalog_shift_safe k hk v hv i (by omega) hdisj
  refine ⟨hpc, ?_⟩
  intro j hj hbit
  have hmb := land_eq_zero_iff.mp hmask j hbit
  rw [lowColsMask_testBit (i % 8) (Nat.mod_lt _ (by omega)) j hj] at hmb
  simp only [decide_eq_false_iff_not] at hmb
  omega

/-- Witness for C3: the first orientation of the first brick, shifted by 2. -/
theorem claim_C3_witness :
    popcount64 ((0x6040C00000000000 : Nat) >>> 2)
        = popcount64 (0x6040C00000000000 : Nat)
      ∧ ∀ j < 64, (0x6040C00000000000 : Nat).testBit j = true →
          (63 - j) % 8 + 2 % 8 < 8 :=
  claim_C3 (Brick.all_bricks.getD 0 ⟨[]⟩) (by decide) ⟨0x6040C00000000000⟩
    (by decide) 2 (by omega) (by decide)

/-- C4: the placement iterator yields exactly one new board per
`(orientation, offset)` pair that misses the occupancy, in
orientation-major increasing-offset order; each new board ORs the candidate
into the bitboard and appends it to the history; the sequence length is at
most orientations times 43, hence at most 344 for a catalog brick. -/
theorem claim_C4 (b : Board) (k : Brick) :
    (ValidPlacementIterator.new b k).emit = b.valid_placements k
      ∧ b.valid_placements k
          = k.brick_variants.flatMap
              (fun v => (List.range 43).filterMap fun i =>
                if b.bitboard &&& (v.bit_pattern >>> i) = 0 then
                  some { bitboard := b.bitboard ||| (v.bit_pattern >>> i),
                         placed_bricks := b.placed_bricks ++ [v.bit_pattern >>> i] }
                else none)
      ∧ (b.valid_placements k).length ≤ k.brick_variants.length * 43
      ∧ (k ∈ Brick.all_bricks → (b.valid_placements k).length ≤ 344) := by
  refine ⟨vpi_run_eq_valid_placements b k, rfl, valid_placements_length_le b k, ?_⟩
  intro hk
  have h8 := catalog_variants_le k hk
  have hlen := valid_placements_length_le b k
  omega

/-- Witness for C4: the first catalog brick on the empty board. -/
theorem claim_C4_witness :
    (ValidPlacementIterator.new Board.new (Brick.all_bricks.getD 0 ⟨[]⟩)).emit
        = Board.new.valid_placements (Brick.all_bricks.getD 0 ⟨[]⟩)
      ∧ (Board.new.valid_placements (Brick.all_bricks.getD 0 ⟨[]⟩)).length ≤ 344 :=
  ⟨(claim_C4 Board.new (Brick.all_bricks.getD 0 ⟨[]⟩)).1,
    (claim_C4 Board.new (Brick.all_bricks.getD 0 ⟨[]⟩)).2.2.2 (by decide)⟩

/-- C5: `for_date` succeeds exactly on the numeric ranges 1-31 and 1-12 (in
particular on February 29, 30 and 31); outside them it fails with the message
carrying the offending value and the valid range, the month error taking
precedence. -/
theorem claim_C5 (day month : Nat) :
    ((∃ b, Board.for_date day month = .ok b)
        ↔ 1 ≤ day ∧ day ≤ 31 ∧ 1 ≤ month ∧ month ≤ 12)
      ∧ (¬ (1 ≤ month ∧ month ≤ 12) →
          Board.for_date day month
            = .error ("Invalid month " ++ toString month ++ ". Valid months: 1-12"))
      ∧ ((1 ≤ month ∧ month ≤ 12) → ¬ (1 ≤ day ∧ day ≤ 31) →
          Board.for_date day month
            = .error ("Invalid day " ++ toString day ++ ". Valid days: 1-31")) := by
  refine ⟨⟨?_, ?_⟩, ?_, ?_⟩
  · rintro ⟨b, hb⟩
    unfold Board.for_date dayIndexed at hb
    split_ifs at hb <;> cases hb <;> omega
  · rintro ⟨hd1, hd31, hm1, hm12⟩
    unfold Board.for_date dayIndexed
    split_ifs <;> first | exact ⟨_, rfl⟩ | (exfalso; omega)
  · intro hm
    unfold Board.for_date
    split_ifs with h1 h2
    · exfalso; omega
    · exfalso; omega
    · rfl
  · intro hm hd
    unfold Board.for_date dayIndexed
    split_ifs <;> first | rfl | (exfalso; omega)

/-- Witness for C5: February 29 succeeds, month 13 and day 0 fail with their
messages. -/
theorem claim_C5_witness :
    (∃ b, Board.for_date 29 2 = Except.ok b)
      ∧ Board.for_date 5 13
          = .error ("Invalid month " ++ toString 13 ++ ". Valid months: 1-12")
      ∧ Board.for_date 0 7
          = .error ("Invalid day " ++ toString 0 ++ ". Valid days: 1-31") :=
  ⟨(claim_C5 29 2).1.mpr (by omega),
    (claim_C5 5 13).2.1 (by omega),
    (claim_C5 0 7).2.2 (by omega) (by omega)⟩

set_option maxHeartbeats 4000000 in
set_option maxRecDepth 100000 in
/-- C7: on the date-free board the brick catalog admits exactly 961 valid
placements in total. -/
theorem claim_C7 :
    (Brick.all_bricks.map fun k => (Board.new.valid_placements k).length).sum
      = 961 := by
  decide

/-- C9: within one run of `solve`, the `test_count` stamps of successively
emitted solutions are non-decreasing. -/
theorem claim_C9 (initial_board : Board) (bricks : List Brick) :
    List.Pairwise (fun s1 s2 => s1.test_count ≤ s2.test_count)
      (solve initial_board bricks) :=
  (si_emit_monotone (stackMeasure (SolveIterator.new initial_board bricks).stack)
    _ le_rfl).1

/-- C10: the search always terminates: from any initial board with the
catalog, iterating the solve iterator reaches `None` in finitely many calls,
and likewise for the placement iterator on any board and brick.  That each
single call to `next` returns after finitely many loop iterations is
witnessed by `SolveIterator.next` and `ValidPlacementIterator.next` being
total functions, defined by well-founded recursion on `stackMeasure` and
`vpiMeasure`. -/
theorem claim_C10 :
    (∀ initial_board : Board, ∃ n,
        iterOpt SolveIterator.nextState n
          (SolveIterator.new initial_board Brick.all_bricks) = none)
      ∧ ∀ (board : Board) (brick : Brick), ∃ n,
          iterOpt ValidPlacementIterator.nextState n
            (ValidPlacementIterator.new board brick) = none := by
  constructor
  · intro b
    exact si_reaches_none
      (stackMeasure (SolveIterator.new b Brick.all_bricks).stack) _ le_rfl
  · intro b k
    exact vpi_reaches_none (vpiMeasure (ValidPlacementIterator.new b k)) _ le_rfl

end Solver
